import Mathlib

/-!
Verification of the `nibs` bit-reader (file `nibs.go`).

The reader pulls bytes from a sequential byte source into a fixed 64-byte
lookahead buffer, compacts and refills the buffer on demand, and serves
1–64-bit extractions ("nibbles") with exact end-of-stream accounting.

Shallow embedding conventions:
* Machine bytes and `uint64` values are `Nat` with explicit `% 2 ^ 64`
  where Go wraps; `int` widths are `Int` so negative widths are expressible.
* The `io.Reader` collaborator is a pure step function
  `σ → Nat → List Nat × Option Err × σ`: given the source state and the
  capacity of the destination slice it returns the bytes written, the
  returned error, and the next source state.  A memory-safe reader can
  write at most as many bytes as the slice holds, hence the `take`.
* The fixed array `buf [64]byte` is modelled by its valid prefix
  `buf[0:used]` (a `List Nat`); the code never reads a cell at index
  `≥ used`, and `used = buf.length` is part of the state invariant.
* The Go error values `io.EOF`, `ErrNibbleSize`, `ErrUnknown`, other I/O
  failures, and the `fmt.Errorf("BUG: ...")` value produced on a broken
  source contract are the constructors of `Err`; an absent error is `none`.
-/

namespace Nibs

/-- Go error values observable from the reader, including the
`fmt.Errorf("BUG: read past avail bytes, ...")` value (which carries
`used` and `pos`) and arbitrary non-EOF I/O failures `ioErr k`. -/
inductive Err where
  | eof : Err
  | nibbleSize : Err
  | unknown : Err
  | ioErr : Nat → Err
  | bug : Nat → Nat → Err
deriving DecidableEq

/-- A pull-based byte source: from a source state and the length of the
destination slice, produce the bytes written, the returned error, and the
next source state. -/
def ReadFn (σ : Type) : Type := σ → Nat → List Nat × Option Err × σ

/-- `bufSize` from nibs.go. -/
def bufSize : Nat := 64

/-- `readThreshold = bufSize - 16` from nibs.go. -/
def readThreshold : Nat := bufSize - 16

/-- The `Nibs` struct: source state, valid buffer prefix `buf[0:used]`,
`used`, bit cursor `pos`, and the terminal error slot `err`. -/
structure NibsSt (σ : Type) where
  src : σ
  buf : List Nat
  used : Nat
  pos : Nat
  err : Option Err
deriving DecidableEq

/-- `New`: bind a fresh reader to a source; no I/O happens. -/
def New (s : σ) : NibsSt σ :=
  { src := s, buf := [], used := 0, pos := 0, err := none }

/-- `remaining()` helper: `(used * 8) - pos` as a Go `int`. -/
def remaining (n : NibsSt σ) : Int :=
  (n.used : Int) * 8 - (n.pos : Int)

/-- `BitsRemaining`: `ErrUnknown` until the terminal error is known,
afterwards the exact number of unread bits.  The Go method performs no
writes, which the state-free type records. -/
def BitsRemaining (n : NibsSt σ) : Int × Option Err :=
  if n.err = none then (0, some Err.unknown) else (remaining n, none)

/-- The compaction step of `nextBit`: when consumed bytes precede the
byte index, `copy(buf[:], buf[bpos:used])` shifts the unconsumed tail to
the front and resets `pos`. -/
def compactIf (n : NibsSt σ) : NibsSt σ :=
  if 0 < n.pos / 8 then
    { n with buf := n.buf.drop (n.pos / 8), used := n.used - n.pos / 8, pos := 0 }
  else n

/-- One fill request of `nextBit`: `c, err := reader.Read(buf[used:])`,
then `used += c` and the returned error is stored in `err` (the callers
only run this when `err = none`, so the unconditional store matches
`if err != nil { n.err = err }`). -/
def readInto (rd : ReadFn σ) (n : NibsSt σ) : NibsSt σ :=
  let m := bufSize - n.used
  let r := rd n.src m
  let chunk := r.1.take m
  { n with src := r.2.2, buf := n.buf ++ chunk,
           used := n.used + chunk.length, err := r.2.1 }

/-- The fill part of `nextBit`: one read, and when it under-fills the
slice without an error (`c < len(rbuf)`, i.e. `used` still below
`bufSize`), exactly one more read into the still-unfilled tail. -/
def doFill (rd : ReadFn σ) (n : NibsSt σ) : NibsSt σ :=
  let n1 := readInto rd n
  if n1.err = none ∧ n1.used < bufSize then readInto rd n1 else n1

/-- The refill block of `nextBit`: at a fresh byte whose index reached
`readThreshold` or `used`, and only while no terminal error is recorded,
compact and fill. -/
def refill (rd : ReadFn σ) (n : NibsSt σ) : NibsSt σ :=
  if n.pos % 8 = 0 ∧ (n.pos / 8 = readThreshold ∨ n.pos / 8 = n.used) then
    if n.err = none then doFill rd (compactIf n) else n
  else n

/-- The tail of `nextBit` after the refill block: either the available
bytes are exhausted (return the terminal error, or the `BUG` error value
when none is recorded), or shift the addressed bit to the rightmost
position, mask it, and advance `pos`. -/
def nextBitCore (n : NibsSt σ) : Nat × Option Err × NibsSt σ :=
  if n.pos / 8 = n.used then
    match n.err with
    | some e => (0, some e, n)
    | none => (0, some (Err.bug n.used n.pos), n)
  else
    let b := n.buf.getD (n.pos / 8) 0
    let bit := (b >>> (8 - n.pos % 8 - 1)) &&& 1
    (bit, none, { n with pos := n.pos + 1 })

/-- `nextBit`: refill block followed by the extraction tail.  (In Go the
local `bpos`/`bposOffset` are recomputed to `0` exactly when compaction
ran, which sets `pos = 0`, so recomputing both from `pos` is identical.) -/
def nextBit (rd : ReadFn σ) (n : NibsSt σ) : Nat × Option Err × NibsSt σ :=
  nextBitCore (refill rd n)

/-- The accumulation loop of `Nibble`: `ret = ret << 1; ret = ret | bit`
on `uint64`, bailing out with value `0` on the first failing bit. -/
def nibbleLoop (rd : ReadFn σ) : Nat → Nat → NibsSt σ → Nat × Option Err × NibsSt σ
  | 0, ret, n => (ret, none, n)
  | k + 1, ret, n =>
    match nextBit rd n with
    | (_, some e, n1) => (0, some e, n1)
    | (bit, none, n1) => nibbleLoop rd k (((ret <<< 1) % 18446744073709551616) ||| bit) n1

/-- `Nibble`: width check, then—once the terminal error is known—the
exhausted / overrun prechecks, then the bit loop. -/
def Nibble (rd : ReadFn σ) (n : NibsSt σ) (bits : Int) : Nat × Option Err × NibsSt σ :=
  if bits < 1 ∨ 64 < bits then (0, some Err.nibbleSize, n)
  else if n.err = none then nibbleLoop rd bits.toNat 0 n
  else if remaining n = 0 then (0, n.err, n)
  else if remaining n < bits then (0, some Err.eof, n)
  else nibbleLoop rd bits.toNat 0 n

/-- `Nibble8`: the 1–8 width check, then `Nibble`, narrowed to `uint8`. -/
def Nibble8 (rd : ReadFn σ) (n : NibsSt σ) (bits : Int) : Nat × Option Err × NibsSt σ :=
  if bits < 1 ∨ 8 < bits then (0, some Err.nibbleSize, n)
  else
    let r := Nibble rd n bits
    (r.1 % 256, r.2.1, r.2.2)

/-- `Nibble16`: the 1–16 width check, then `Nibble`, narrowed to `uint16`. -/
def Nibble16 (rd : ReadFn σ) (n : NibsSt σ) (bits : Int) : Nat × Option Err × NibsSt σ :=
  if bits < 1 ∨ 16 < bits then (0, some Err.nibbleSize, n)
  else
    let r := Nibble rd n bits
    (r.1 % 65536, r.2.1, r.2.2)

/-- `Nibble32`: the 1–32 width check, then `Nibble`, narrowed to `uint32`. -/
def Nibble32 (rd : ReadFn σ) (n : NibsSt σ) (bits : Int) : Nat × Option Err × NibsSt σ :=
  if bits < 1 ∨ 32 < bits then (0, some Err.nibbleSize, n)
  else
    let r := Nibble rd n bits
    (r.1 % 4294967296, r.2.1, r.2.2)

/-- The well-behaved byte source over an in-memory byte slice, with the
semantics of Go's `bytes.Reader.Read`: when data remains, serve up to the
slice capacity with no error; when exhausted, return `0, io.EOF`. -/
def listRead : ReadFn (List Nat) := fun s m =>
  match s with
  | [] => ([], some Err.eof, [])
  | _ => (s.take m, none, s.drop m)

/-- A source that wraps another one and logs the length of every slice it
is asked to fill; used to count and locate the reader's fill requests. -/
def logRead (rd : ReadFn σ) : ReadFn (σ × List Nat) := fun s m =>
  let r := rd s.1 m
  (r.1, r.2.1, (r.2.2, s.2 ++ [m]))

/-- A contract-breaking source: always returns zero bytes and no error. -/
def silentRead : ReadFn Unit := fun _ _ => ([], none, ())

/-- What the `Nibble` loop accumulates while extracting bits `t`,
`t+1`, ..., `t+k-1` (MSB-first) of the single byte `b` into `ret`. -/
def byteBits (b : Nat) : Nat → Nat → Nat → Nat
  | _, 0, ret => ret
  | t, k + 1, ret =>
    byteBits b (t + 1) k (((ret <<< 1) % 18446744073709551616) ||| ((b >>> (8 - t - 1)) &&& 1))

/-- The bytes not yet consumed: the unconsumed tail of the buffer
followed by the bytes still held by the list source. -/
def avail (n : NibsSt (List Nat)) : List Nat :=
  n.buf.drop (n.pos / 8) ++ n.src

/-- States of a reader over the list source reachable from `New`:
the cursor stays within the valid prefix, the buffer is full (or still
untouched) while no terminal error is known, and the only terminal error
the list source can produce is `eof`, recorded exactly when the source
list is drained. -/
def Good (n : NibsSt (List Nat)) : Prop :=
  n.pos ≤ 8 * n.used ∧ n.used = n.buf.length ∧ n.used ≤ bufSize ∧
  (∀ b ∈ n.buf, b < 256) ∧ (∀ b ∈ n.src, b < 256) ∧
  (n.err = none → (n.used = 64 ∧ n.pos ≤ 384) ∨ (n.used = 0 ∧ n.pos = 0)) ∧
  (n.err ≠ none → n.err = some Err.eof ∧ n.src = [])

/-- The basic structural invariant of the claim on invariants: the bit
cursor never passes the valid prefix and `used` never passes the
buffer's capacity. -/
def Inv (n : NibsSt σ) : Prop :=
  n.pos ≤ 8 * n.used ∧ n.used ≤ bufSize

/-- A public operation of the reader's API. -/
inductive Op where
  | nib : Int → Op
  | nib8 : Int → Op
  | nib16 : Int → Op
  | nib32 : Int → Op
  | rem : Op

/-- The state after one public operation (`BitsRemaining` writes
nothing). -/
def runOp (rd : ReadFn σ) (n : NibsSt σ) : Op → NibsSt σ
  | Op.nib b => (Nibble rd n b).2.2
  | Op.nib8 b => (Nibble8 rd n b).2.2
  | Op.nib16 b => (Nibble16 rd n b).2.2
  | Op.nib32 b => (Nibble32 rd n b).2.2
  | Op.rem => n

/-- The state after a sequence of public operations. -/
def runOps (rd : ReadFn σ) (n : NibsSt σ) : List Op → NibsSt σ
  | [] => n
  | o :: os => runOps rd (runOp rd n o) os

/-- `k` successive calls of `Nibble(8)`, collecting each call's value and
error. -/
def readAll8 (rd : ReadFn σ) : Nat → NibsSt σ → List (Nat × Option Err) × NibsSt σ
  | 0, n => ([], n)
  | k + 1, n =>
    let r := Nibble rd n 8
    let rest := readAll8 rd k r.2.2
    ((r.1, r.2.1) :: rest.1, rest.2)

/-- The source bytes of the concrete scenario claim. -/
def c2src : List Nat := [1, 2, 4, 8, 16, 32, 64, 128]

/-- Scenario state after `Nibble(48)` from a fresh reader on `c2src`. -/
def c2n1 : NibsSt (List Nat) := (Nibble listRead (New c2src) 48).2.2

/-- Scenario state after the further successful `Nibble(16)`. -/
def c2n2 : NibsSt (List Nat) := (Nibble listRead c2n1 16).2.2

/-! ### Basic lemmas about the refill block and the extraction tail -/

theorem refill_err {σ : Type} (rd : ReadFn σ) (n : NibsSt σ) (h : ¬ n.err = none) :
    refill rd n = n := by
  unfold refill
  split
  · simp [h]
  · rfl

theorem refill_not_aligned {σ : Type} (rd : ReadFn σ) (n : NibsSt σ) (h : ¬ n.pos % 8 = 0) :
    refill rd n = n := by
  unfold refill
  rw [if_neg]
  intro hc
  exact h hc.1

theorem refill_no_trigger {σ : Type} (rd : ReadFn σ) (n : NibsSt σ)
    (h1 : ¬ n.pos / 8 = readThreshold) (h2 : ¬ n.pos / 8 = n.used) :
    refill rd n = n := by
  unfold refill
  rw [if_neg]
  rintro ⟨-, h | h⟩
  · exact h1 h
  · exact h2 h

theorem refill_active {σ : Type} (rd : ReadFn σ) (n : NibsSt σ)
    (ht : n.pos % 8 = 0 ∧ (n.pos / 8 = readThreshold ∨ n.pos / 8 = n.used))
    (he : n.err = none) :
    refill rd n = doFill rd (compactIf n) := by
  unfold refill
  rw [if_pos ht, if_pos he]

theorem nextBitCore_extract {σ : Type} (n : NibsSt σ) (h : ¬ n.pos / 8 = n.used) :
    nextBitCore n =
      ((n.buf.getD (n.pos / 8) 0 >>> (8 - n.pos % 8 - 1)) &&& 1, none,
        { n with pos := n.pos + 1 }) := by
  unfold nextBitCore
  rw [if_neg h]

theorem nextBitCore_stop {σ : Type} (n : NibsSt σ) (e : Err) (h : n.pos / 8 = n.used)
    (he : n.err = some e) :
    nextBitCore n = (0, some e, n) := by
  unfold nextBitCore
  rw [if_pos h, he]

theorem nextBitCore_noData {σ : Type} (n : NibsSt σ) (h : n.pos / 8 = n.used)
    (he : n.err = none) :
    nextBitCore n = (0, some (Err.bug n.used n.pos), n) := by
  unfold nextBitCore
  rw [if_pos h, he]

/-- With the terminal error known, a bit extraction whose request stays
inside the valid prefix succeeds and moves the cursor by one. -/
theorem nibbleLoop_ok {σ : Type} (rd : ReadFn σ) :
    ∀ (k : Nat) (n : NibsSt σ) (ret : Nat), ¬ n.err = none → k + n.pos ≤ 8 * n.used →
      (nibbleLoop rd k ret n).2.1 = none ∧
      (nibbleLoop rd k ret n).2.2 = { n with pos := n.pos + k } := by
  intro k
  induction k with
  | zero => intro n ret _ _; exact ⟨rfl, rfl⟩
  | succ k ih =>
    intro n ret he hk
    have hlt : n.pos / 8 < n.used := by omega
    have hnb : nextBit rd n =
        ((n.buf.getD (n.pos / 8) 0 >>> (8 - n.pos % 8 - 1)) &&& 1, none,
          { n with pos := n.pos + 1 }) := by
      rw [nextBit, refill_err rd n he, nextBitCore_extract n (by omega)]
    have := ih { n with pos := n.pos + 1 }
      (((ret <<< 1) % 18446744073709551616) ||| ((n.buf.getD (n.pos / 8) 0 >>> (8 - n.pos % 8 - 1)) &&& 1))
      he (by simp; omega)
    simp only [nibbleLoop, hnb] at this ⊢
    refine ⟨this.1, ?_⟩
    rw [this.2]
    simp
    omega

/-- The frozen-state lemma: with the terminal error known, no bit
extraction ever touches the source, the buffer, `used` or `err`, and the
cursor can only move forward, never past the valid prefix. -/
theorem nibbleLoop_frozen {σ : Type} (rd : ReadFn σ) :
    ∀ (k : Nat) (n : NibsSt σ) (ret : Nat), ¬ n.err = none →
      (nibbleLoop rd k ret n).2.2.err = n.err ∧
      (nibbleLoop rd k ret n).2.2.src = n.src ∧
      (nibbleLoop rd k ret n).2.2.buf = n.buf ∧
      (nibbleLoop rd k ret n).2.2.used = n.used ∧
      n.pos ≤ (nibbleLoop rd k ret n).2.2.pos ∧
      (n.pos ≤ 8 * n.used → (nibbleLoop rd k ret n).2.2.pos ≤ 8 * n.used) := by
  intro k
  induction k with
  | zero => intro n ret _; exact ⟨rfl, rfl, rfl, rfl, Nat.le_refl _, fun h => h⟩
  | succ k ih =>
    intro n ret he
    by_cases hstop : n.pos / 8 = n.used
    · obtain ⟨e, hee⟩ := Option.ne_none_iff_exists'.mp he
      have hnb : nextBit rd n = (0, some e, n) := by
        rw [nextBit, refill_err rd n he, nextBitCore_stop n e hstop hee]
      have heq : nibbleLoop rd (k + 1) ret n = (0, some e, n) := by
        simp only [nibbleLoop, hnb]
      rw [heq]
      exact ⟨rfl, rfl, rfl, rfl, Nat.le_refl _, fun h => h⟩
    · have hnb : nextBit rd n =
          ((n.buf.getD (n.pos / 8) 0 >>> (8 - n.pos % 8 - 1)) &&& 1, none,
            { n with pos := n.pos + 1 }) := by
        rw [nextBit, refill_err rd n he, nextBitCore_extract n hstop]
      have heq : nibbleLoop rd (k + 1) ret n =
          nibbleLoop rd k
            (((ret <<< 1) % 18446744073709551616) |||
              ((n.buf.getD (n.pos / 8) 0 >>> (8 - n.pos % 8 - 1)) &&& 1))
            { n with pos := n.pos + 1 } := by
        simp only [nibbleLoop, hnb]
      obtain ⟨f1, f2, f3, f4, f5, f6⟩ := ih { n with pos := n.pos + 1 }
        (((ret <<< 1) % 18446744073709551616) |||
          ((n.buf.getD (n.pos / 8) 0 >>> (8 - n.pos % 8 - 1)) &&& 1)) he
      rw [heq]
      have f5a : n.pos + 1 ≤ (nibbleLoop rd k
          (((ret <<< 1) % 18446744073709551616) |||
            ((n.buf.getD (n.pos / 8) 0 >>> (8 - n.pos % 8 - 1)) &&& 1))
          { n with pos := n.pos + 1 }).2.2.pos := f5
      have f6a : n.pos + 1 ≤ 8 * n.used → (nibbleLoop rd k
          (((ret <<< 1) % 18446744073709551616) |||
            ((n.buf.getD (n.pos / 8) 0 >>> (8 - n.pos % 8 - 1)) &&& 1))
          { n with pos := n.pos + 1 }).2.2.pos ≤ 8 * n.used := f6
      exact ⟨f1, f2, f3, f4, by omega, fun hp => f6a (by omega)⟩

/-- A failing accumulation loop returns the value 0. -/
theorem nibbleLoop_err_val {σ : Type} (rd : ReadFn σ) :
    ∀ (k : Nat) (n : NibsSt σ) (ret : Nat) (e : Err),
      (nibbleLoop rd k ret n).2.1 = some e → (nibbleLoop rd k ret n).1 = 0 := by
  intro k
  induction k with
  | zero => intro n ret e h; simp [nibbleLoop] at h
  | succ k ih =>
    intro n ret e h
    simp only [nibbleLoop] at h ⊢
    rcases hnb : nextBit rd n with ⟨bit, err, n1⟩
    rw [hnb] at h
    cases err with
    | some e1 => rfl
    | none => exact ih n1 _ e h

/-- `Nibble` with the terminal error known, a valid width, and zero bits
remaining fails with the stored terminal error and changes nothing. -/
theorem nibble_exhausted {σ : Type} (rd : ReadFn σ) (n : NibsSt σ) (w : Int)
    (h1 : 1 ≤ w) (h2 : w ≤ 64) (he : ¬ n.err = none) (hr : remaining n = 0) :
    Nibble rd n w = (0, n.err, n) := by
  unfold Nibble
  rw [if_neg (by omega), if_neg he, if_pos hr]

/-- `Nibble` with the terminal error known and a valid width exceeding
the positive number of remaining bits fails with the generic
end-of-stream error and changes nothing. -/
theorem nibble_overrun {σ : Type} (rd : ReadFn σ) (n : NibsSt σ) (w : Int)
    (h1 : 1 ≤ w) (h2 : w ≤ 64) (he : ¬ n.err = none) (hr0 : 0 < remaining n)
    (hrw : remaining n < w) :
    Nibble rd n w = (0, some Err.eof, n) := by
  unfold Nibble
  rw [if_neg (by omega), if_neg he, if_neg (by omega), if_pos hrw]

/-- A failing `Nibble` returns the value 0. -/
theorem nibble_err_val {σ : Type} (rd : ReadFn σ) (n : NibsSt σ) (w : Int) (e : Err)
    (h : (Nibble rd n w).2.1 = some e) : (Nibble rd n w).1 = 0 := by
  unfold Nibble at h ⊢
  split_ifs at h ⊢ <;> first
    | rfl
    | exact nibbleLoop_err_val rd _ _ _ e h

/-! ### Preservation of the structural invariant -/

theorem compactIf_inv {σ : Type} (n : NibsSt σ) (h : Inv n) : Inv (compactIf n) := by
  obtain ⟨h1, h2⟩ := h
  unfold compactIf
  split
  · exact ⟨by simp, by simp; omega⟩
  · exact ⟨h1, h2⟩

theorem readInto_inv {σ : Type} (rd : ReadFn σ) (n : NibsSt σ) (h : Inv n) :
    Inv (readInto rd n) := by
  obtain ⟨h1, h2⟩ := h
  have hc : ((rd n.src (bufSize - n.used)).1.take (bufSize - n.used)).length ≤
      bufSize - n.used := List.length_take_le _ _
  unfold readInto
  constructor
  · simp only
    omega
  · simp only
    omega

theorem doFill_inv {σ : Type} (rd : ReadFn σ) (n : NibsSt σ) (h : Inv n) :
    Inv (doFill rd n) := by
  show Inv (if (readInto rd n).err = none ∧ (readInto rd n).used < bufSize
    then readInto rd (readInto rd n) else readInto rd n)
  split
  · exact readInto_inv rd _ (readInto_inv rd n h)
  · exact readInto_inv rd n h

theorem refill_inv {σ : Type} (rd : ReadFn σ) (n : NibsSt σ) (h : Inv n) :
    Inv (refill rd n) := by
  unfold refill
  split
  · split
    · exact doFill_inv rd _ (compactIf_inv n h)
    · exact h
  · exact h

theorem nextBitCore_inv {σ : Type} (n : NibsSt σ) (h : Inv n) :
    Inv (nextBitCore n).2.2 := by
  obtain ⟨h1, h2⟩ := h
  unfold nextBitCore
  split
  · rcases n.err with - | e
    · exact ⟨h1, h2⟩
    · exact ⟨h1, h2⟩
  · rename_i hne
    exact ⟨by simp only; omega, h2⟩

theorem nextBit_inv {σ : Type} (rd : ReadFn σ) (n : NibsSt σ) (h : Inv n) :
    Inv (nextBit rd n).2.2 :=
  nextBitCore_inv _ (refill_inv rd n h)

theorem nibbleLoop_inv {σ : Type} (rd : ReadFn σ) :
    ∀ (k : Nat) (n : NibsSt σ) (ret : Nat), Inv n → Inv (nibbleLoop rd k ret n).2.2 := by
  intro k
  induction k with
  | zero => intro n ret h; exact h
  | succ k ih =>
    intro n ret h
    have hi := nextBit_inv rd n h
    simp only [nibbleLoop]
    rcases hnb : nextBit rd n with ⟨bit, err, n1⟩
    rw [hnb] at hi
    cases err with
    | some e => exact hi
    | none => exact ih n1 _ hi

theorem nibble_inv {σ : Type} (rd : ReadFn σ) (n : NibsSt σ) (w : Int) (h : Inv n) :
    Inv (Nibble rd n w).2.2 := by
  unfold Nibble
  split_ifs <;> first
    | exact h
    | exact nibbleLoop_inv rd _ n 0 h

theorem runOp_inv {σ : Type} (rd : ReadFn σ) (n : NibsSt σ) (op : Op) (h : Inv n) :
    Inv (runOp rd n op) := by
  cases op with
  | nib w => exact nibble_inv rd n w h
  | nib8 w =>
    simp only [runOp]
    unfold Nibble8
    split
    · exact h
    · exact nibble_inv rd n w h
  | nib16 w =>
    simp only [runOp]
    unfold Nibble16
    split
    · exact h
    · exact nibble_inv rd n w h
  | nib32 w =>
    simp only [runOp]
    unfold Nibble32
    split
    · exact h
    · exact nibble_inv rd n w h
  | rem => exact h

theorem runOps_inv {σ : Type} (rd : ReadFn σ) :
    ∀ (ops : List Op) (n : NibsSt σ), Inv n → Inv (runOps rd n ops) := by
  intro ops
  induction ops with
  | nil => intro n h; exact h
  | cons op ops ih => intro n h; exact ih _ (runOp_inv rd n op h)

/-! ### The reader once the terminal error is known -/

/-- With the terminal error known, `Nibble` never touches `err`, the
source, the buffer or `used`, and moves the cursor only forward, never
past the valid prefix. -/
theorem nibble_frozen {σ : Type} (rd : ReadFn σ) (n : NibsSt σ) (w : Int)
    (he : ¬ n.err = none) :
    (Nibble rd n w).2.2.err = n.err ∧ (Nibble rd n w).2.2.src = n.src ∧
    (Nibble rd n w).2.2.buf = n.buf ∧ (Nibble rd n w).2.2.used = n.used ∧
    n.pos ≤ (Nibble rd n w).2.2.pos ∧
    (n.pos ≤ 8 * n.used → (Nibble rd n w).2.2.pos ≤ 8 * n.used) := by
  unfold Nibble
  split_ifs with h1 h2 h3 _h4 <;> first
    | exact ⟨rfl, rfl, rfl, rfl, Nat.le_refl _, fun h => h⟩
    | exact absurd h2 he
    | exact nibbleLoop_frozen rd _ n 0 he

theorem runOp_frozen {σ : Type} (rd : ReadFn σ) (n : NibsSt σ) (op : Op)
    (he : ¬ n.err = none) :
    (runOp rd n op).err = n.err ∧ (runOp rd n op).src = n.src ∧
    (runOp rd n op).buf = n.buf ∧ (runOp rd n op).used = n.used ∧
    n.pos ≤ (runOp rd n op).pos ∧
    (n.pos ≤ 8 * n.used → (runOp rd n op).pos ≤ 8 * n.used) := by
  cases op with
  | nib w => exact nibble_frozen rd n w he
  | nib8 w =>
    simp only [runOp]
    unfold Nibble8
    split
    · exact ⟨rfl, rfl, rfl, rfl, Nat.le_refl _, fun h => h⟩
    · exact nibble_frozen rd n w he
  | nib16 w =>
    simp only [runOp]
    unfold Nibble16
    split
    · exact ⟨rfl, rfl, rfl, rfl, Nat.le_refl _, fun h => h⟩
    · exact nibble_frozen rd n w he
  | nib32 w =>
    simp only [runOp]
    unfold Nibble32
    split
    · exact ⟨rfl, rfl, rfl, rfl, Nat.le_refl _, fun h => h⟩
    · exact nibble_frozen rd n w he
  | rem => exact ⟨rfl, rfl, rfl, rfl, Nat.le_refl _, fun h => h⟩

theorem runOps_frozen {σ : Type} (rd : ReadFn σ) :
    ∀ (ops : List Op) (n : NibsSt σ), ¬ n.err = none →
      (runOps rd n ops).err = n.err ∧ (runOps rd n ops).src = n.src ∧
      (runOps rd n ops).buf = n.buf ∧ (runOps rd n ops).used = n.used ∧
      n.pos ≤ (runOps rd n ops).pos ∧
      (n.pos ≤ 8 * n.used → (runOps rd n ops).pos ≤ 8 * n.used) := by
  intro ops
  induction ops with
  | nil => intro n he; exact ⟨rfl, rfl, rfl, rfl, Nat.le_refl _, fun h => h⟩
  | cons op ops ih =>
    intro n he
    obtain ⟨g1, g2, g3, g4, g5, g6⟩ := runOp_frozen rd n op he
    obtain ⟨f1, f2, f3, f4, f5, f6⟩ := ih (runOp rd n op) (by rw [g1]; exact he)
    simp only [runOps]
    refine ⟨by rw [f1, g1], by rw [f2, g2], by rw [f3, g3], by rw [f4, g4], by omega, ?_⟩
    intro hp
    have := f6 (by rw [g4]; exact g6 hp)
    rw [g4] at this
    exact this

/-- A fully drained reader (terminal error known, zero bits remaining)
is left completely unchanged by every public operation. -/
theorem runOp_fixed {σ : Type} (rd : ReadFn σ) (n : NibsSt σ) (op : Op)
    (he : ¬ n.err = none) (hr : remaining n = 0) :
    runOp rd n op = n := by
  have hnib : ∀ w : Int, (Nibble rd n w).2.2 = n := by
    intro w
    unfold Nibble
    split_ifs with h1
    · rfl
    · rfl
  cases op with
  | nib w => exact hnib w
  | nib8 w =>
    simp only [runOp]
    unfold Nibble8
    split
    · rfl
    · exact hnib w
  | nib16 w =>
    simp only [runOp]
    unfold Nibble16
    split
    · rfl
    · exact hnib w
  | nib32 w =>
    simp only [runOp]
    unfold Nibble32
    split
    · rfl
    · exact hnib w
  | rem => rfl

theorem runOps_fixed {σ : Type} (rd : ReadFn σ) :
    ∀ (ops : List Op) (n : NibsSt σ), ¬ n.err = none → remaining n = 0 →
      runOps rd n ops = n := by
  intro ops
  induction ops with
  | nil => intro n _ _; rfl
  | cons op ops ih =>
    intro n he hr
    simp only [runOps, runOp_fixed rd n op he hr]
    exact ih n he hr

/-! ### Claim theorems -/

/-- Claim C9: every public operation preserves the state invariant
`0 ≤ cursor ≤ used×8` with `used ≤ bufSize`; once the terminal error is
set it stays set and `used×8 − cursor` is monotonically non-increasing
across every sequence of subsequent operations; a fully drained reader
(`remaining = 0`) is a fixed point of every operation. -/
theorem claim_c9 {σ : Type} (rd : ReadFn σ) (ops : List Op) (n : NibsSt σ) (h : Inv n) :
    Inv (runOps rd n ops) ∧
    (¬ n.err = none →
      (runOps rd n ops).err = n.err ∧ remaining (runOps rd n ops) ≤ remaining n) ∧
    (¬ n.err = none → remaining n = 0 → runOps rd n ops = n) := by
  refine ⟨runOps_inv rd ops n h, ?_, fun he hr => runOps_fixed rd ops n he hr⟩
  intro he
  obtain ⟨f1, f2, f3, f4, f5, f6⟩ := runOps_frozen rd ops n he
  refine ⟨f1, ?_⟩
  unfold remaining
  rw [f4]
  omega

/-- Claim C9 witness: a concrete drained state is a fixed point and the
invariant is preserved. -/
theorem claim_c9_witness :
    Inv (runOps listRead (⟨[], [3], 1, 8, some Err.eof⟩ : NibsSt (List Nat))
      [Op.nib 8, Op.nib8 3, Op.rem]) ∧
    (¬ (⟨[], [3], 1, 8, some Err.eof⟩ : NibsSt (List Nat)).err = none →
      (runOps listRead (⟨[], [3], 1, 8, some Err.eof⟩ : NibsSt (List Nat))
        [Op.nib 8, Op.nib8 3, Op.rem]).err =
        (⟨[], [3], 1, 8, some Err.eof⟩ : NibsSt (List Nat)).err ∧
      remaining (runOps listRead (⟨[], [3], 1, 8, some Err.eof⟩ : NibsSt (List Nat))
        [Op.nib 8, Op.nib8 3, Op.rem]) ≤
        remaining (⟨[], [3], 1, 8, some Err.eof⟩ : NibsSt (List Nat))) ∧
    (¬ (⟨[], [3], 1, 8, some Err.eof⟩ : NibsSt (List Nat)).err = none →
      remaining (⟨[], [3], 1, 8, some Err.eof⟩ : NibsSt (List Nat)) = 0 →
      runOps listRead (⟨[], [3], 1, 8, some Err.eof⟩ : NibsSt (List Nat))
        [Op.nib 8, Op.nib8 3, Op.rem] =
        (⟨[], [3], 1, 8, some Err.eof⟩ : NibsSt (List Nat))) :=
  claim_c9 listRead [Op.nib 8, Op.nib8 3, Op.rem]
    (⟨[], [3], 1, 8, some Err.eof⟩ : NibsSt (List Nat)) (by constructor <;> decide)

/-- Claim C4: once the terminal state is known and the width is valid,
`Nibble` with zero bits remaining fails with the stored terminal error
itself (the end-of-stream marker or the original I/O failure verbatim),
while `Nibble` with a positive-but-insufficient number of remaining bits
fails with the generic end-of-stream signal, even when the stored error
is a non-end-of-stream I/O failure; neither path changes the state. -/
theorem claim_c4 {σ : Type} (rd : ReadFn σ) (n : NibsSt σ) (w : Int) (e : Err)
    (he : n.err = some e) (h1 : 1 ≤ w) (h2 : w ≤ 64) :
    (remaining n = 0 → Nibble rd n w = (0, some e, n)) ∧
    (0 < remaining n → remaining n < w → Nibble rd n w = (0, some Err.eof, n)) := by
  constructor
  · intro hr
    rw [nibble_exhausted rd n w h1 h2 (by simp [he]) hr, he]
  · intro hr0 hrw
    exact nibble_overrun rd n w h1 h2 (by simp [he]) hr0 hrw

/-- Claim C4 witness: with a stored non-end-of-stream I/O failure,
requesting 8 of the 4 remaining bits yields the generic end-of-stream
error, and requesting from a drained reader yields the stored I/O
failure verbatim. -/
theorem claim_c4_witness :
    Nibble listRead (⟨[], [7], 1, 4, some (Err.ioErr 3)⟩ : NibsSt (List Nat)) 8 =
      (0, some Err.eof, ⟨[], [7], 1, 4, some (Err.ioErr 3)⟩) ∧
    Nibble listRead (⟨[], [7], 1, 8, some (Err.ioErr 3)⟩ : NibsSt (List Nat)) 8 =
      (0, some (Err.ioErr 3), ⟨[], [7], 1, 8, some (Err.ioErr 3)⟩) :=
  ⟨(claim_c4 listRead ⟨[], [7], 1, 4, some (Err.ioErr 3)⟩ 8 (Err.ioErr 3) rfl
      (by decide) (by decide)).2 (by decide) (by decide),
   (claim_c4 listRead ⟨[], [7], 1, 8, some (Err.ioErr 3)⟩ 8 (Err.ioErr 3) rfl
      (by decide) (by decide)).1 (by decide)⟩

/-- Claim C5: `BitsRemaining` fails with the `Unknown` error exactly when
no prior extraction has discovered the terminal state; once the terminal
state is known it returns `used×8 − cursor` with no error.  The
embedding's state-free type records that the Go method performs no
writes in either case. -/
theorem claim_c5 {σ : Type} (n : NibsSt σ) :
    ((BitsRemaining n).2 = some Err.unknown ↔ n.err = none) ∧
    (¬ n.err = none → BitsRemaining n = ((n.used : Int) * 8 - (n.pos : Int), none)) := by
  unfold BitsRemaining
  by_cases h : n.err = none
  · rw [if_pos h]
    exact ⟨⟨fun _ => h, fun _ => rfl⟩, fun hc => absurd h hc⟩
  · rw [if_neg h]
    refine ⟨⟨fun hc => by simp at hc, fun hc => absurd hc h⟩, fun _ => rfl⟩

/-- Claim C5 witness: a fresh reader reports `Unknown`; a reader with the
terminal error known reports the exact remaining-bit count. -/
theorem claim_c5_witness :
    (BitsRemaining (New ([5] : List Nat))).2 = some Err.unknown ∧
    BitsRemaining (⟨[], [7], 1, 3, some Err.eof⟩ : NibsSt (List Nat)) = (5, none) :=
  ⟨(claim_c5 (New ([5] : List Nat))).1.mpr rfl,
   (claim_c5 (⟨[], [7], 1, 3, some Err.eof⟩ : NibsSt (List Nat))).2 (by decide)⟩

/-- Claim C7: for every reader state and every source, a width outside
[1,64] (including 0, 65 and negative widths) makes `Nibble` fail with
the invalid-width error, and widths outside [1,8]/[1,16]/[1,32] make
`Nibble8`/`Nibble16`/`Nibble32` fail likewise; in every case the entire
returned state (source included, so before any I/O) is the input state. -/
theorem claim_c7 {σ : Type} (rd : ReadFn σ) (n : NibsSt σ) (w : Int) :
    ((w < 1 ∨ 64 < w) → Nibble rd n w = (0, some Err.nibbleSize, n)) ∧
    ((w < 1 ∨ 8 < w) → Nibble8 rd n w = (0, some Err.nibbleSize, n)) ∧
    ((w < 1 ∨ 16 < w) → Nibble16 rd n w = (0, some Err.nibbleSize, n)) ∧
    ((w < 1 ∨ 32 < w) → Nibble32 rd n w = (0, some Err.nibbleSize, n)) := by
  refine ⟨fun h => ?_, fun h => ?_, fun h => ?_, fun h => ?_⟩
  · unfold Nibble; rw [if_pos h]
  · unfold Nibble8; rw [if_pos h]
  · unfold Nibble16; rw [if_pos h]
  · unfold Nibble32; rw [if_pos h]

/-- Claim C7 witness: widths 0, 65, −1 are rejected by `Nibble` and a
width of 9 is rejected by `Nibble8`, each leaving the fresh state. -/
theorem claim_c7_witness :
    Nibble listRead (New ([1] : List Nat)) 0 = (0, some Err.nibbleSize, New [1]) ∧
    Nibble listRead (New ([1] : List Nat)) 65 = (0, some Err.nibbleSize, New [1]) ∧
    Nibble listRead (New ([1] : List Nat)) (-1) = (0, some Err.nibbleSize, New [1]) ∧
    Nibble8 listRead (New ([1] : List Nat)) 9 = (0, some Err.nibbleSize, New [1]) :=
  ⟨(claim_c7 listRead (New [1]) 0).1 (by decide),
   (claim_c7 listRead (New [1]) 65).1 (by decide),
   (claim_c7 listRead (New [1]) (-1)).1 (by decide),
   (claim_c7 listRead (New [1]) 9).2.1 (by decide)⟩

/-- Claim C10: whenever `Nibble`, `Nibble8`, `Nibble16` or `Nibble32`
returns an error, the accompanying value is exactly 0. -/
theorem claim_c10 {σ : Type} (rd : ReadFn σ) (n : NibsSt σ) (w : Int) (e : Err) :
    ((Nibble rd n w).2.1 = some e → (Nibble rd n w).1 = 0) ∧
    ((Nibble8 rd n w).2.1 = some e → (Nibble8 rd n w).1 = 0) ∧
    ((Nibble16 rd n w).2.1 = some e → (Nibble16 rd n w).1 = 0) ∧
    ((Nibble32 rd n w).2.1 = some e → (Nibble32 rd n w).1 = 0) := by
  refine ⟨nibble_err_val rd n w e, ?_, ?_, ?_⟩
  · unfold Nibble8
    split
    · intro _; rfl
    · intro h
      have h0 := nibble_err_val rd n w e h
      show (Nibble rd n w).1 % 256 = 0
      rw [h0]
  · unfold Nibble16
    split
    · intro _; rfl
    · intro h
      have h0 := nibble_err_val rd n w e h
      show (Nibble rd n w).1 % 65536 = 0
      rw [h0]
  · unfold Nibble32
    split
    · intro _; rfl
    · intro h
      have h0 := nibble_err_val rd n w e h
      show (Nibble rd n w).1 % 4294967296 = 0
      rw [h0]

/-- Claim C10 witness: the failing extraction from an empty source
returns the value 0 together with its error. -/
theorem claim_c10_witness :
    (Nibble listRead (New ([] : List Nat)) 8).2.1 = some Err.eof ∧
    (Nibble listRead (New ([] : List Nat)) 8).1 = 0 :=
  ⟨by decide, (claim_c10 listRead (New ([] : List Nat)) 8 Err.eof).1 (by decide)⟩

/-- Claim C2: on source bytes [1,2,4,8,16,32,64,128], `Nibble(48)`
succeeds, `BitsRemaining` then reports 16 with no error, `Nibble(32)`
then fails with end-of-stream leaving the state unchanged, `Nibble(16)`
then succeeds, and afterwards every extraction of any valid width fails
with end-of-stream. -/
theorem claim_c2 :
    (Nibble listRead (New c2src) 48).2.1 = none ∧
    BitsRemaining c2n1 = (16, none) ∧
    Nibble listRead c2n1 32 = (0, some Err.eof, c2n1) ∧
    (Nibble listRead c2n1 16).2.1 = none ∧
    (∀ w : Int, 1 ≤ w → w ≤ 64 → Nibble listRead c2n2 w = (0, some Err.eof, c2n2)) := by
  refine ⟨by decide, by decide, by decide, by decide, fun w h1 h2 => ?_⟩
  have hx := nibble_exhausted listRead c2n2 w h1 h2 (by decide) (by decide)
  have he : c2n2.err = some Err.eof := by decide
  rw [he] at hx
  exact hx

/-- Claim C2 witness: the post-scenario exhausted state rejects a
width-64 request with end-of-stream. -/
theorem claim_c2_witness :
    Nibble listRead c2n2 64 = (0, some Err.eof, c2n2) :=
  claim_c2.2.2.2.2 64 (by decide) (by decide)

/-- Claim C3 counterexample: on the one-byte source [255] a fresh
reader's `Nibble(16)` returns an error, yet the cursor moved from 0 to
8 — the failing call consumed the 8 available bits, so a failed
extraction does not always leave the cursor unchanged. -/
theorem claim_c3_counterexample :
    (Nibble listRead (New [255]) 16).2.1 = some Err.eof ∧
    (New ([255] : List Nat)).pos = 0 ∧
    (Nibble listRead (New [255]) 16).2.2.pos = 8 := by decide

/-- Claim C3 (amended): a failing extraction returns no partial value,
and once the terminal state is already known at entry, a failing
`Nibble` (and hence any fixed-width wrapper, which merely narrows it)
leaves the reader's state — cursor included — entirely unchanged.
During terminal-state discovery, however, a failing call may consume
the bits it read before hitting end-of-stream, as the counterexample
shows. -/
theorem claim_c3 {σ : Type} (rd : ReadFn σ) (n : NibsSt σ) (w : Int) (e : Err)
    (he : ¬ n.err = none)
    (hf : (Nibble rd n w).2.1 = some e) :
    (Nibble rd n w).2.2 = n := by
  unfold Nibble at hf ⊢
  split_ifs at hf ⊢ with h1 h2 h3
  · rfl
  · rfl
  · rfl
  · have hrem : remaining n = (n.used : Int) * 8 - (n.pos : Int) := rfl
    have hok := (nibbleLoop_ok rd w.toNat n 0 he (by omega)).1
    rw [hf] at hok
    exact Option.noConfusion hok

/-- Claim C3 witness: a failing width-3 request on a drained reader with
the terminal error known leaves the state unchanged. -/
theorem claim_c3_witness :
    (Nibble listRead (⟨[], [7], 1, 8, some Err.eof⟩ : NibsSt (List Nat)) 3).2.1 =
      some Err.eof ∧
    (Nibble listRead (⟨[], [7], 1, 8, some Err.eof⟩ : NibsSt (List Nat)) 3).2.2 =
      ⟨[], [7], 1, 8, some Err.eof⟩ :=
  ⟨by decide,
   claim_c3 listRead ⟨[], [7], 1, 8, some Err.eof⟩ 3 Err.eof (by decide) (by decide)⟩

/-! ### The refill block's fill requests, observed through `logRead` -/

theorem compactIf_src {σ : Type} (n : NibsSt σ) : (compactIf n).src = n.src := by
  unfold compactIf
  split <;> rfl

theorem refill_inactive {σ : Type} (rd : ReadFn σ) (n : NibsSt σ)
    (ht : ¬ (n.pos % 8 = 0 ∧ (n.pos / 8 = readThreshold ∨ n.pos / 8 = n.used))) :
    refill rd n = n := by
  unfold refill
  rw [if_neg ht]

/-- The fill step under the logging source: a first-request error means
one request and that error recorded; a full first request means one
request and no error; a short errorless first request means exactly one
more request, sized to the still-unfilled tail, whose error is
recorded. -/
theorem doFill_log {σ : Type} (rd : ReadFn σ) (x : NibsSt (σ × List Nat)) :
    ((¬ (rd x.src.1 (bufSize - x.used)).2.1 = none →
      (doFill (logRead rd) x).err = (rd x.src.1 (bufSize - x.used)).2.1 ∧
      (doFill (logRead rd) x).src.2 = x.src.2 ++ [bufSize - x.used]) ∧
    ((rd x.src.1 (bufSize - x.used)).2.1 = none →
      ¬ ((rd x.src.1 (bufSize - x.used)).1.take (bufSize - x.used)).length <
          bufSize - x.used →
      (doFill (logRead rd) x).err = none ∧
      (doFill (logRead rd) x).src.2 = x.src.2 ++ [bufSize - x.used]) ∧
    ((rd x.src.1 (bufSize - x.used)).2.1 = none →
      ((rd x.src.1 (bufSize - x.used)).1.take (bufSize - x.used)).length <
          bufSize - x.used →
      (doFill (logRead rd) x).src.2 = x.src.2 ++ [bufSize - x.used,
        (bufSize - x.used) -
          ((rd x.src.1 (bufSize - x.used)).1.take (bufSize - x.used)).length] ∧
      (doFill (logRead rd) x).err =
        (rd (rd x.src.1 (bufSize - x.used)).2.2
          ((bufSize - x.used) -
            ((rd x.src.1 (bufSize - x.used)).1.take (bufSize - x.used)).length)).2.1)) := by
  have hle : ((rd x.src.1 (bufSize - x.used)).1.take (bufSize - x.used)).length ≤
      bufSize - x.used := List.length_take_le _ _
  refine ⟨?_, ?_, ?_⟩
  · intro herr
    have hd : doFill (logRead rd) x = readInto (logRead rd) x := by
      show (if (readInto (logRead rd) x).err = none ∧ (readInto (logRead rd) x).used < bufSize
        then readInto (logRead rd) (readInto (logRead rd) x)
        else readInto (logRead rd) x) = _
      rw [if_neg]
      intro hc
      exact herr hc.1
    rw [hd]
    exact ⟨rfl, rfl⟩
  · intro herr hfull
    have hd : doFill (logRead rd) x = readInto (logRead rd) x := by
      show (if (readInto (logRead rd) x).err = none ∧ (readInto (logRead rd) x).used < bufSize
        then readInto (logRead rd) (readInto (logRead rd) x)
        else readInto (logRead rd) x) = _
      rw [if_neg]
      intro hc
      have hu : (readInto (logRead rd) x).used = x.used +
        ((rd x.src.1 (bufSize - x.used)).1.take (bufSize - x.used)).length := rfl
      have hlt := hc.2
      rw [hu] at hlt
      omega
    rw [hd]
    exact ⟨herr, rfl⟩
  · intro herr hshort
    have hd : doFill (logRead rd) x = readInto (logRead rd) (readInto (logRead rd) x) := by
      show (if (readInto (logRead rd) x).err = none ∧ (readInto (logRead rd) x).used < bufSize
        then readInto (logRead rd) (readInto (logRead rd) x)
        else readInto (logRead rd) x) = _
      rw [if_pos]
      refine ⟨herr, ?_⟩
      have hu : (readInto (logRead rd) x).used = x.used +
        ((rd x.src.1 (bufSize - x.used)).1.take (bufSize - x.used)).length := rfl
      rw [hu]
      omega
    have hm : bufSize - (x.used +
        ((rd x.src.1 (bufSize - x.used)).1.take (bufSize - x.used)).length) =
        (bufSize - x.used) -
          ((rd x.src.1 (bufSize - x.used)).1.take (bufSize - x.used)).length := by
      omega
    rw [hd]
    constructor
    · have h2 : (readInto (logRead rd) (readInto (logRead rd) x)).src.2 =
          (x.src.2 ++ [bufSize - x.used]) ++ [bufSize - (x.used +
            ((rd x.src.1 (bufSize - x.used)).1.take (bufSize - x.used)).length)] := rfl
      rw [h2, hm, List.append_assoc]
      rfl
    · show (rd (rd x.src.1 (bufSize - x.used)).2.2
        (bufSize - (x.used +
          ((rd x.src.1 (bufSize - x.used)).1.take (bufSize - x.used)).length))).2.1 = _
      rw [hm]

/-- Claim C8: during a refill, the reader makes at most two fill
requests; when the first request under-fills without error it makes
exactly one additional request sized to the still-unfilled tail of the
buffer (never a third), while an errored or full first request is
followed by no second one; any error returned by either request is
recorded as the terminal error; and once a terminal error is recorded,
no sequence of public operations ever issues another fill request and
the recorded error never changes. -/
theorem claim_c8 {σ : Type} (rd : ReadFn σ) (n : NibsSt (σ × List Nat)) :
    (∃ reqs, (refill (logRead rd) n).src.2 = n.src.2 ++ reqs ∧ reqs.length ≤ 2) ∧
    ((n.pos % 8 = 0 ∧ (n.pos / 8 = readThreshold ∨ n.pos / 8 = n.used)) → n.err = none →
      ((¬ (rd n.src.1 (bufSize - (compactIf n).used)).2.1 = none →
        (refill (logRead rd) n).err =
          (rd n.src.1 (bufSize - (compactIf n).used)).2.1 ∧
        (refill (logRead rd) n).src.2 =
          n.src.2 ++ [bufSize - (compactIf n).used]) ∧
      ((rd n.src.1 (bufSize - (compactIf n).used)).2.1 = none →
        ¬ ((rd n.src.1 (bufSize - (compactIf n).used)).1.take
            (bufSize - (compactIf n).used)).length < bufSize - (compactIf n).used →
        (refill (logRead rd) n).err = none ∧
        (refill (logRead rd) n).src.2 =
          n.src.2 ++ [bufSize - (compactIf n).used]) ∧
      ((rd n.src.1 (bufSize - (compactIf n).used)).2.1 = none →
        ((rd n.src.1 (bufSize - (compactIf n).used)).1.take
            (bufSize - (compactIf n).used)).length < bufSize - (compactIf n).used →
        (refill (logRead rd) n).src.2 =
          n.src.2 ++ [bufSize - (compactIf n).used,
            (bufSize - (compactIf n).used) -
              ((rd n.src.1 (bufSize - (compactIf n).used)).1.take
                (bufSize - (compactIf n).used)).length] ∧
        (refill (logRead rd) n).err =
          (rd (rd n.src.1 (bufSize - (compactIf n).used)).2.2
            ((bufSize - (compactIf n).used) -
              ((rd n.src.1 (bufSize - (compactIf n).used)).1.take
                (bufSize - (compactIf n).used)).length)).2.1))) ∧
    (¬ n.err = none → ∀ ops : List Op,
      (runOps (logRead rd) n ops).src = n.src ∧ (runOps (logRead rd) n ops).err = n.err) := by
  have hcs : (compactIf n).src = n.src := compactIf_src n
  refine ⟨?_, fun ht he => ?_, fun he ops =>
    ⟨(runOps_frozen (logRead rd) ops n he).2.1, (runOps_frozen (logRead rd) ops n he).1⟩⟩
  · by_cases ht : n.pos % 8 = 0 ∧ (n.pos / 8 = readThreshold ∨ n.pos / 8 = n.used)
    · by_cases he : n.err = none
      · rw [refill_active (logRead rd) n ht he]
        obtain ⟨d1, d2, d3⟩ := doFill_log rd (compactIf n)
        rw [hcs] at d1 d2 d3
        by_cases h1 : (rd n.src.1 (bufSize - (compactIf n).used)).2.1 = none
        · by_cases h2 : ((rd n.src.1 (bufSize - (compactIf n).used)).1.take
              (bufSize - (compactIf n).used)).length < bufSize - (compactIf n).used
          · exact ⟨_, (d3 h1 h2).1, by simp⟩
          · exact ⟨_, (d2 h1 h2).2, by simp⟩
        · exact ⟨_, (d1 h1).2, by simp⟩
      · rw [refill_err (logRead rd) n he]
        exact ⟨[], (List.append_nil _).symm, by simp⟩
    · rw [refill_inactive (logRead rd) n ht]
      exact ⟨[], (List.append_nil _).symm, by simp⟩
  · rw [refill_active (logRead rd) n ht he]
    obtain ⟨d1, d2, d3⟩ := doFill_log rd (compactIf n)
    rw [hcs] at d1 d2 d3
    exact ⟨d1, d2, d3⟩

/-- Claim C8 witness: on a one-byte source the first fill request (for
64 bytes) under-fills without error, so the reader issues exactly one
more request for the 63-byte tail, and the end-of-stream it returns is
recorded as the terminal error. -/
theorem claim_c8_witness :
    (refill (logRead listRead) (New (([5], []) : List Nat × List Nat))).src.2 = [64, 63] ∧
    (refill (logRead listRead) (New (([5], []) : List Nat × List Nat))).err = some Err.eof :=
  ⟨(((claim_c8 listRead (New (([5], []) : List Nat × List Nat))).2.1 (by decide) rfl).2.2
      (by decide) (by decide)).1.trans (by decide),
   (((claim_c8 listRead (New (([5], []) : List Nat × List Nat))).2.1 (by decide) rfl).2.2
      (by decide) (by decide)).2.trans (by decide)⟩

/-! ### The refill block over the in-memory byte-list source -/

theorem readInto_list_nil (x : NibsSt (List Nat)) (hs : x.src = []) :
    readInto listRead x = { x with err := some Err.eof } := by
  obtain ⟨s, buf, used, pos, err⟩ := x
  simp only at hs
  subst hs
  simp [readInto, listRead]

theorem readInto_list_cons (x : NibsSt (List Nat)) (hs : ¬ x.src = []) :
    readInto listRead x = { x with
      src := x.src.drop (bufSize - x.used),
      buf := x.buf ++ x.src.take (bufSize - x.used),
      used := x.used + (x.src.take (bufSize - x.used)).length,
      err := none } := by
  obtain ⟨s, buf, used, pos, err⟩ := x
  simp only at hs
  cases s with
  | nil => exact absurd rfl hs
  | cons b t => simp [readInto, listRead, List.take_take]

/-- `doFill` over the byte-list source: an empty source is answered with
end-of-stream at once; a source shorter than the free space is drained
entirely and the forced second read records end-of-stream; a source with
enough bytes fills the buffer completely with no error. -/
theorem doFill_list (x : NibsSt (List Nat)) (hu : x.used ≤ bufSize) :
    (x.src = [] → doFill listRead x = { x with err := some Err.eof }) ∧
    (¬ x.src = [] → x.src.length < bufSize - x.used →
      doFill listRead x = { x with
        src := [],
        buf := x.buf ++ x.src,
        used := x.used + x.src.length,
        err := some Err.eof }) ∧
    (¬ x.src = [] → bufSize - x.used ≤ x.src.length →
      doFill listRead x = { x with
        src := x.src.drop (bufSize - x.used),
        buf := x.buf ++ x.src.take (bufSize - x.used),
        used := bufSize,
        err := none }) := by
  refine ⟨?_, ?_, ?_⟩
  · intro hs
    have h1 := readInto_list_nil x hs
    show (if (readInto listRead x).err = none ∧ (readInto listRead x).used < bufSize
      then readInto listRead (readInto listRead x) else readInto listRead x) = _
    rw [h1, if_neg (by simp)]
  · intro hs hlen
    have h1 := readInto_list_cons x hs
    have htake : x.src.take (bufSize - x.used) = x.src := List.take_of_length_le (by omega)
    have hdrop : x.src.drop (bufSize - x.used) = [] := List.drop_eq_nil_of_le (by omega)
    rw [htake, hdrop] at h1
    show (if (readInto listRead x).err = none ∧ (readInto listRead x).used < bufSize
      then readInto listRead (readInto listRead x) else readInto listRead x) = _
    rw [h1, if_pos (by simp; omega)]
    rw [readInto_list_nil _ (by simp)]
  · intro hs hlen
    have h1 := readInto_list_cons x hs
    have hlt : (x.src.take (bufSize - x.used)).length = bufSize - x.used := by
      rw [List.length_take]
      omega
    have hused : x.used + (x.src.take (bufSize - x.used)).length = bufSize := by
      rw [hlt]
      omega
    show (if (readInto listRead x).err = none ∧ (readInto listRead x).used < bufSize
      then readInto listRead (readInto listRead x) else readInto listRead x) = _
    rw [h1, hused, if_neg (by simp)]

/-- The refill characterization on reachable byte-aligned states: the
refill block preserves reachability and the unconsumed byte sequence;
when nothing is left it has recorded end-of-stream with the cursor at
the end of the valid prefix; when bytes are left the cursor addresses a
valid buffered byte afterwards. -/
theorem refill_char (n : NibsSt (List Nat)) (hg : Good n) (ha : n.pos % 8 = 0) :
    Good (refill listRead n) ∧
    (refill listRead n).pos % 8 = 0 ∧
    avail (refill listRead n) = avail n ∧
    (avail n = [] →
      (refill listRead n).err = some Err.eof ∧
      (refill listRead n).pos = 8 * (refill listRead n).used) ∧
    (¬ avail n = [] →
      (refill listRead n).pos / 8 < (refill listRead n).used ∧
      ((refill listRead n).err = none → (refill listRead n).pos + 8 ≤ 384)) := by
  obtain ⟨g1, g2, g3, g4, g5, g6, g7⟩ := hg
  by_cases he : n.err = none
  case neg =>
    obtain ⟨he2, hsrc⟩ := g7 he
    rw [refill_err listRead n he]
    refine ⟨⟨g1, g2, g3, g4, g5, g6, g7⟩, ha, rfl, ?_, ?_⟩
    · intro hav
      unfold avail at hav
      rw [hsrc, List.append_nil, List.drop_eq_nil_iff, ← g2] at hav
      exact ⟨he2, by omega⟩
    · intro hav
      unfold avail at hav
      rw [hsrc, List.append_nil] at hav
      have hlt : n.pos / 8 < n.buf.length := by
        by_contra hc
        exact hav (List.drop_eq_nil_of_le (by omega))
      rw [← g2] at hlt
      exact ⟨hlt, fun hcn => absurd hcn he⟩
  case pos =>
    obtain ⟨src, buf, used, pos, err⟩ := n
    simp only at g1 g2 g3 g4 g5 g6 g7 ha he ⊢
    subst he
    rcases g6 rfl with ⟨hu64, hp384⟩ | ⟨hu0, hp0⟩
    · -- streaming state: full buffer, cursor at most at the threshold
      subst hu64
      by_cases htr : pos = 384
      · -- the cursor is at the threshold: compact 48 bytes, then fill
        subst htr
        have ht : (384 : Nat) % 8 = 0 ∧
            ((384 : Nat) / 8 = readThreshold ∨ (384 : Nat) / 8 = 64) := by
          refine ⟨by norm_num, Or.inl ?_⟩
          rw [readThreshold, bufSize]
        rw [refill_active listRead _ ht rfl]
        have hcn : compactIf (⟨src, buf, 64, 384, none⟩ : NibsSt (List Nat)) =
            ⟨src, buf.drop 48, 16, 0, none⟩ := by
          unfold compactIf
          norm_num
        rw [hcn]
        have hbl : buf.length = 64 := g2.symm
        have hdl : (buf.drop 48).length = 16 := by
          rw [List.length_drop, hbl]
        have hdm : ∀ b ∈ buf.drop 48, b < 256 := fun b hb => g4 b (List.mem_of_mem_drop hb)
        have hav : avail (⟨src, buf, 64, 384, none⟩ : NibsSt (List Nat)) =
            buf.drop 48 ++ src := by
          unfold avail
          norm_num
        obtain ⟨d1, d2, d3⟩ := doFill_list (⟨src, buf.drop 48, 16, 0, none⟩ : NibsSt (List Nat))
          (by norm_num [bufSize])
        simp only [bufSize] at d1 d2 d3
        norm_num at d1 d2 d3
        by_cases hs : src = []
        · rw [d1 hs]
          subst hs
          refine ⟨⟨by simp, by simp [hdl], by simp [bufSize] <;> omega, hdm, by simp,
            by simp, by simp⟩, by simp, ?_, ?_, ?_⟩
          · unfold avail
            simp
          · intro h0
            exfalso
            rw [hav] at h0
            have h1 := List.drop_eq_nil_iff.mp (List.append_eq_nil.mp h0).1
            omega
          · intro h0
            refine ⟨by simp <;> omega, fun hc => absurd hc (by simp)⟩
        · by_cases hsh : src.length < 48
          · rw [d2 hs hsh]
            refine ⟨⟨by simp <;> omega, by simp [hdl], by simp [bufSize] <;> omega, ?_,
              by simp, by simp, by simp⟩, by simp, ?_, ?_, ?_⟩
            · intro b hb
              simp at hb
              rcases hb with hb | hb
              · exact hdm b hb
              · exact g5 b hb
            · unfold avail
              simp
            · intro h0
              exfalso
              rw [hav] at h0
              have h1 := List.drop_eq_nil_iff.mp (List.append_eq_nil.mp h0).1
              omega
            · intro h0
              refine ⟨by simp <;> omega, fun hc => absurd hc (by simp)⟩
          · rw [d3 hs (by omega)]
            refine ⟨⟨by simp [bufSize] <;> omega, ?_, by simp [bufSize], ?_, ?_,
              by simp [bufSize], by simp⟩, by simp, ?_, ?_, ?_⟩
            · simp [bufSize, hdl, List.length_take]
              omega
            · intro b hb
              simp at hb
              rcases hb with hb | hb
              · exact hdm b hb
              · exact g5 b (List.mem_of_mem_take hb)
            · intro b hb
              simp at hb
              exact g5 b (List.mem_of_mem_drop hb)
            · unfold avail
              simp [List.append_assoc, List.take_append_drop]
            · intro h0
              exfalso
              rw [hav] at h0
              have h1 := List.drop_eq_nil_iff.mp (List.append_eq_nil.mp h0).1
              omega
            · intro h0
              exact ⟨by simp [bufSize] <;> omega, fun _ => by simp⟩
      · -- strictly before the threshold: no trigger, no refill
        rw [refill_no_trigger listRead _
          (by show ¬ pos / 8 = readThreshold; rw [readThreshold, bufSize]; omega)
          (by show ¬ pos / 8 = 64; omega)]
        refine ⟨⟨g1, g2, g3, g4, g5, g6, g7⟩, ha, rfl, ?_, ?_⟩
        · intro h0
          exfalso
          unfold avail at h0
          simp only at h0
          have h1 := List.drop_eq_nil_iff.mp (List.append_eq_nil.mp h0).1
          omega
        · intro h0
          exact ⟨by show pos / 8 < 64; omega, fun _ => by show pos + 8 ≤ 384; omega⟩
    · -- fresh state: empty buffer, first fill
      subst hu0 hp0
      have hbuf : buf = [] := by
        rw [← List.length_eq_zero, ← g2]
      subst hbuf
      have ht : (0 : Nat) % 8 = 0 ∧ ((0 : Nat) / 8 = readThreshold ∨ (0 : Nat) / 8 = 0) :=
        ⟨rfl, Or.inr rfl⟩
      rw [refill_active listRead _ ht rfl]
      have hcn : compactIf (⟨src, [], 0, 0, none⟩ : NibsSt (List Nat)) =
          ⟨src, [], 0, 0, none⟩ := by
        unfold compactIf
        norm_num
      rw [hcn]
      have hav : avail (⟨src, [], 0, 0, none⟩ : NibsSt (List Nat)) = src := by
        unfold avail
        simp
      obtain ⟨d1, d2, d3⟩ := doFill_list (⟨src, [], 0, 0, none⟩ : NibsSt (List Nat))
        (by norm_num)
      simp only [bufSize] at d1 d2 d3
      norm_num at d1 d2 d3
      by_cases hs : src = []
      · rw [d1 hs]
        subst hs
        refine ⟨⟨by simp, by simp, by norm_num [bufSize], by simp, by simp,
          by simp, by simp⟩, by simp, ?_, ?_, ?_⟩
        · unfold avail
          simp
        · intro h0
          exact ⟨by simp, by simp⟩
        · intro h0
          rw [hav] at h0
          exact absurd rfl h0
      · by_cases hsh : src.length < 64
        · rw [d2 hs hsh]
          refine ⟨⟨by simp <;> omega, by simp, by simp [bufSize] <;> omega, ?_, by simp,
            by simp, by simp⟩, by simp, ?_, ?_, ?_⟩
          · intro b hb
            simp at hb
            exact g5 b hb
          · unfold avail
            simp
          · intro h0
            rw [hav] at h0
            exact absurd h0 hs
          · intro h0
            have hlp : 0 < src.length := by
              cases src with
              | nil => exact absurd rfl hs
              | cons b t => simp
            refine ⟨by simp <;> omega, fun hc => absurd hc (by simp)⟩
        · rw [d3 hs (by omega)]
          refine ⟨⟨by simp [bufSize] <;> omega, ?_, by simp [bufSize], ?_, ?_,
            by simp [bufSize], by simp⟩, by simp, ?_, ?_, ?_⟩
          · simp [bufSize, List.length_take]
            omega
          · intro b hb
            simp at hb
            exact g5 b (List.mem_of_mem_take hb)
          · intro b hb
            simp at hb
            exact g5 b (List.mem_of_mem_drop hb)
          · unfold avail
            simp [List.take_append_drop]
          · intro h0
            rw [hav] at h0
            exact absurd h0 hs
          · intro h0
            exact ⟨by simp [bufSize] <;> omega, fun _ => by simp⟩

/-- Extracting the remaining `k` bits of the currently addressed byte:
no refill can trigger mid-byte, so the loop shifts the byte's bits in
one by one and advances the cursor by `k`. -/
theorem loop_in_byte :
    ∀ (k : Nat) (m : NibsSt (List Nat)) (ret : Nat),
      m.pos % 8 + k = 8 → 0 < m.pos % 8 → m.pos / 8 < m.used →
      nibbleLoop listRead k ret m =
        (byteBits (m.buf.getD (m.pos / 8) 0) (m.pos % 8) k ret, none,
          { m with pos := m.pos + k }) := by
  intro k
  induction k with
  | zero =>
    intro m ret h1 h2 h3
    exfalso
    omega
  | succ k ih =>
    intro m ret h1 h2 h3
    obtain ⟨s, buf, used, pos, err⟩ := m
    simp only at h1 h2 h3 ⊢
    have hnb : nextBit listRead (⟨s, buf, used, pos, err⟩ : NibsSt (List Nat)) =
        ((buf.getD (pos / 8) 0 >>> (8 - pos % 8 - 1)) &&& 1, none,
          ⟨s, buf, used, pos + 1, err⟩) := by
      rw [nextBit, refill_not_aligned listRead _ (by show ¬ pos % 8 = 0; omega),
        nextBitCore_extract _ (by show ¬ pos / 8 = used; omega)]
    have heq : nibbleLoop listRead (k + 1) ret (⟨s, buf, used, pos, err⟩ : NibsSt (List Nat)) =
        nibbleLoop listRead k
          (((ret <<< 1) % 18446744073709551616) |||
            ((buf.getD (pos / 8) 0 >>> (8 - pos % 8 - 1)) &&& 1))
          ⟨s, buf, used, pos + 1, err⟩ := by
      simp only [nibbleLoop, hnb]
    rw [heq]
    cases k with
    | zero =>
      simp only [nibbleLoop, byteBits]
    | succ k2 =>
      rw [ih ⟨s, buf, used, pos + 1, err⟩ _
        (by show (pos + 1) % 8 + (k2 + 1) = 8; omega)
        (by show 0 < (pos + 1) % 8; omega)
        (by show (pos + 1) / 8 < used; omega)]
      have e1 : (pos + 1) / 8 = pos / 8 := by omega
      have e2 : (pos + 1) % 8 = pos % 8 + 1 := by omega
      have e3 : pos + 1 + (k2 + 1) = pos + (k2 + 1 + 1) := by omega
      simp only [e1, e2, e3, byteBits]

set_option maxRecDepth 20000 in
/-- Reassembling all 8 bits of a byte MSB-first yields the byte back. -/
theorem byteBits_id : ∀ b : Nat, b < 256 → byteBits b 0 8 0 = b := by decide

/-- The byte-step: from a reachable byte-aligned state with at least one
unconsumed byte, `Nibble(8)` succeeds, returns exactly that byte, and
leaves a reachable byte-aligned state holding the remaining bytes. -/
theorem nibble8_byte (n : NibsSt (List Nat)) (hg : Good n) (ha : n.pos % 8 = 0)
    (b : Nat) (rest : List Nat) (hav : avail n = b :: rest) :
    (Nibble listRead n 8).1 = b ∧ (Nibble listRead n 8).2.1 = none ∧
    Good (Nibble listRead n 8).2.2 ∧ (Nibble listRead n 8).2.2.pos % 8 = 0 ∧
    avail (Nibble listRead n 8).2.2 = rest := by
  have hloop : Nibble listRead n 8 = nibbleLoop listRead 8 0 n := by
    unfold Nibble
    rw [if_neg (by norm_num)]
    by_cases he : n.err = none
    · rw [if_pos he]
      rfl
    · have hsrc := (hg.2.2.2.2.2.2 he).2
      have hg1 := hg.1
      have hg2 := hg.2.1
      have hbl : n.pos / 8 < n.buf.length := by
        by_contra hc
        have hnil : avail n = [] := by
          unfold avail
          rw [hsrc, List.append_nil]
          exact List.drop_eq_nil_of_le (by omega)
        rw [hav] at hnil
        exact List.noConfusion hnil
      have hrem : remaining n = (n.used : Int) * 8 - (n.pos : Int) := rfl
      rw [if_neg he, if_neg (by rw [hrem]; omega), if_neg (by rw [hrem]; omega)]
      rfl
  rw [hloop]
  obtain ⟨hG, hal, hAv, -, hNe⟩ := refill_char n hg ha
  obtain ⟨hlt, h384⟩ := hNe (by rw [hav]; exact fun hc => List.noConfusion hc)
  rcases hq : refill listRead n with ⟨s2, buf2, used2, pos2, err2⟩
  rw [hq] at hG hal hAv hlt h384
  obtain ⟨q1, q2, q3, q4, q5, q6, q7⟩ := hG
  simp only at q1 q2 q3 q4 q5 q6 q7 hal hlt h384
  have hx : buf2.drop (pos2 / 8) ++ s2 = b :: rest := by
    rw [← hav, ← hAv]
    rfl
  have hlen : pos2 / 8 < buf2.length := by omega
  have hsp : buf2.drop (pos2 / 8) = buf2.getD (pos2 / 8) 0 :: buf2.drop (pos2 / 8 + 1) := by
    rw [List.drop_eq_getElem_cons hlen, List.getD_eq_getElem _ 0 hlen]
  rw [hsp, List.cons_append] at hx
  injection hx with hb hrest2
  have hblt : b < 256 := by
    rw [← hb]
    have hmem : buf2.getD (pos2 / 8) 0 ∈ buf2 := by
      rw [List.getD_eq_getElem _ 0 hlen]
      exact List.getElem_mem hlen
    exact q4 _ hmem
  have hcore : nextBit listRead n =
      ((buf2.getD (pos2 / 8) 0 >>> (8 - pos2 % 8 - 1)) &&& 1, none,
        ⟨s2, buf2, used2, pos2 + 1, err2⟩) := by
    rw [nextBit, hq, nextBitCore_extract _ (by show ¬ pos2 / 8 = used2; omega)]
  have heq : nibbleLoop listRead 8 0 n = nibbleLoop listRead 7
      (((0 <<< 1) % 18446744073709551616) |||
        ((buf2.getD (pos2 / 8) 0 >>> (8 - pos2 % 8 - 1)) &&& 1))
      ⟨s2, buf2, used2, pos2 + 1, err2⟩ := by
    show nibbleLoop listRead (7 + 1) 0 n = _
    simp only [nibbleLoop, hcore]
  rw [heq]
  rw [loop_in_byte 7 ⟨s2, buf2, used2, pos2 + 1, err2⟩ _
    (by show (pos2 + 1) % 8 + 7 = 8; omega)
    (by show 0 < (pos2 + 1) % 8; omega)
    (by show (pos2 + 1) / 8 < used2; omega)]
  have e1 : (pos2 + 1) / 8 = pos2 / 8 := by omega
  have e2 : (pos2 + 1) % 8 = 1 := by omega
  refine ⟨?_, rfl, ?_, ?_, ?_⟩
  · show byteBits (buf2.getD ((pos2 + 1) / 8) 0) ((pos2 + 1) % 8) 7
      (((0 <<< 1) % 18446744073709551616) |||
        ((buf2.getD (pos2 / 8) 0 >>> (8 - pos2 % 8 - 1)) &&& 1)) = b
    rw [e1, e2, hal, hb]
    have hstep : byteBits b 0 8 0 = byteBits b 1 7
        (((0 <<< 1) % 18446744073709551616) ||| ((b >>> (8 - 0 - 1)) &&& 1)) := by
      show byteBits b 0 (7 + 1) 0 = _
      simp only [byteBits]
    rw [← hstep]
    exact byteBits_id b hblt
  · show Good ⟨s2, buf2, used2, pos2 + 1 + 7, err2⟩
    refine ⟨by show pos2 + 1 + 7 ≤ 8 * used2; omega, q2, q3, q4, q5, ?_, q7⟩
    intro hen
    rcases q6 hen with ⟨h64, hp⟩ | ⟨h0, hp⟩
    · refine Or.inl ⟨h64, ?_⟩
      show pos2 + 1 + 7 ≤ 384
      have := h384 hen
      omega
    · exfalso
      omega
  · show (pos2 + 1 + 7) % 8 = 0
    omega
  · show buf2.drop ((pos2 + 1 + 7) / 8) ++ s2 = rest
    have e4 : (pos2 + 1 + 7) / 8 = pos2 / 8 + 1 := by omega
    rw [e4]
    exact hrest2

/-- The end-of-stream step: from a reachable byte-aligned state with no
bytes left, `Nibble(8)` fails with end-of-stream, and afterwards the
terminal error is recorded and zero bits remain. -/
theorem nibble_at_end (n : NibsSt (List Nat)) (hg : Good n) (ha : n.pos % 8 = 0)
    (hav : avail n = []) :
    (Nibble listRead n 8).1 = 0 ∧
    (Nibble listRead n 8).2.1 = some Err.eof ∧
    (Nibble listRead n 8).2.2.err = some Err.eof ∧
    remaining (Nibble listRead n 8).2.2 = 0 := by
  obtain ⟨hG, hal, hAv, hEmp, -⟩ := refill_char n hg ha
  obtain ⟨herr, hpos⟩ := hEmp hav
  by_cases he : n.err = none
  · have hloop : Nibble listRead n 8 = nibbleLoop listRead 8 0 n := by
      unfold Nibble
      rw [if_neg (by norm_num), if_pos he]
      rfl
    have hstop : nextBit listRead n = (0, some Err.eof, refill listRead n) := by
      rw [nextBit, nextBitCore_stop _ Err.eof (by omega) herr]
    have heq : nibbleLoop listRead 8 0 n = (0, some Err.eof, refill listRead n) := by
      show nibbleLoop listRead (7 + 1) 0 n = _
      simp only [nibbleLoop, hstop]
    rw [hloop, heq]
    refine ⟨rfl, rfl, herr, ?_⟩
    show ((refill listRead n).used : Int) * 8 - ((refill listRead n).pos : Int) = 0
    omega
  · rw [refill_err listRead n he] at herr hpos
    have hrem : remaining n = 0 := by
      unfold remaining
      omega
    rw [nibble_exhausted listRead n 8 (by norm_num) (by norm_num) he hrem]
    exact ⟨rfl, herr, herr, hrem⟩

/-- The round-trip induction: from a reachable byte-aligned state whose
unconsumed byte sequence is `l`, calling `Nibble(8)` `l.length` times
returns exactly the bytes of `l`, each with no error, and ends in a
reachable byte-aligned state with nothing left. -/
theorem readAll8_spec :
    ∀ (l : List Nat) (n : NibsSt (List Nat)), Good n → n.pos % 8 = 0 → avail n = l →
      (readAll8 listRead l.length n).1 = l.map (fun b => (b, none)) ∧
      Good (readAll8 listRead l.length n).2 ∧
      (readAll8 listRead l.length n).2.pos % 8 = 0 ∧
      avail (readAll8 listRead l.length n).2 = [] := by
  intro l
  induction l with
  | nil =>
    intro n hg ha hav
    exact ⟨rfl, hg, ha, hav⟩
  | cons b rest ih =>
    intro n hg ha hav
    obtain ⟨v1, v2, v3, v4, v5⟩ := nibble8_byte n hg ha b rest hav
    have heq : readAll8 listRead (b :: rest).length n =
        (((Nibble listRead n 8).1, (Nibble listRead n 8).2.1) ::
          (readAll8 listRead rest.length (Nibble listRead n 8).2.2).1,
         (readAll8 listRead rest.length (Nibble listRead n 8).2.2).2) := by
      show readAll8 listRead (rest.length + 1) n = _
      simp only [readAll8]
    obtain ⟨w1, w2, w3, w4⟩ := ih (Nibble listRead n 8).2.2 v3 v4 v5
    rw [heq]
    refine ⟨?_, w2, w3, w4⟩
    simp only [List.map]
    rw [v1, v2, w1]

/-- Claim C1: for every byte sequence, `Nibble(8)` called once per byte
succeeds each time and returns exactly the original bytes; the next
`Nibble(8)` fails with end-of-stream; `BitsRemaining` afterwards reports
0 with no error. -/
theorem claim_c1 (bs : List Nat) (hb : ∀ b ∈ bs, b < 256) :
    (readAll8 listRead bs.length (New bs)).1 = bs.map (fun b => (b, none)) ∧
    (Nibble listRead (readAll8 listRead bs.length (New bs)).2 8).1 = 0 ∧
    (Nibble listRead (readAll8 listRead bs.length (New bs)).2 8).2.1 = some Err.eof ∧
    BitsRemaining (Nibble listRead (readAll8 listRead bs.length (New bs)).2 8).2.2 =
      (0, none) := by
  have hgNew : Good (New bs) := by
    refine ⟨by simp [New], by simp [New], by simp [New, bufSize], by simp [New], ?_, ?_, ?_⟩
    · intro b hbm
      exact hb b hbm
    · intro _
      exact Or.inr ⟨rfl, rfl⟩
    · intro hc
      exact absurd rfl hc
  have havNew : avail (New bs) = bs := by
    unfold avail New
    simp
  obtain ⟨w1, w2, w3, w4⟩ := readAll8_spec bs (New bs) hgNew (by simp [New]) havNew
  obtain ⟨z1, z2, z3, z4⟩ := nibble_at_end _ w2 w3 w4
  refine ⟨w1, z1, z2, ?_⟩
  unfold BitsRemaining
  rw [if_neg (by simp [z3]), z4]

/-- Claim C1 witness: the two-byte sequence [3, 129] round-trips. -/
theorem claim_c1_witness :
    (readAll8 listRead ([3, 129] : List Nat).length (New [3, 129])).1 =
      ([3, 129] : List Nat).map (fun b => (b, none)) ∧
    (Nibble listRead (readAll8 listRead ([3, 129] : List Nat).length (New [3, 129])).2 8).1 = 0 ∧
    (Nibble listRead (readAll8 listRead ([3, 129] : List Nat).length (New [3, 129])).2 8).2.1 =
      some Err.eof ∧
    BitsRemaining
      (Nibble listRead (readAll8 listRead ([3, 129] : List Nat).length (New [3, 129])).2 8).2.2 =
      (0, none) :=
  claim_c1 [3, 129] (by decide)

/-- A bit extraction from a reachable list-source state never produces
the internal-consistency `BUG` error and lands in a reachable state. -/
theorem nextBit_good (m : NibsSt (List Nat)) (hg : Good m) :
    Good (nextBit listRead m).2.2 ∧
    ∀ u p, ¬ (nextBit listRead m).2.1 = some (Err.bug u p) := by
  by_cases ha : m.pos % 8 = 0
  · obtain ⟨hG, hal, hAv, hEmp, hNe⟩ := refill_char m hg ha
    by_cases hav : avail m = []
    · obtain ⟨herr, hpos⟩ := hEmp hav
      have hstop : nextBit listRead m = (0, some Err.eof, refill listRead m) := by
        rw [nextBit, nextBitCore_stop _ Err.eof (by omega) herr]
      rw [hstop]
      exact ⟨hG, fun u p hc => by simp at hc⟩
    · obtain ⟨hlt, h384⟩ := hNe hav
      obtain ⟨q1, q2, q3, q4, q5, q6, q7⟩ := hG
      have hext : nextBit listRead m =
          (((refill listRead m).buf.getD ((refill listRead m).pos / 8) 0 >>>
              (8 - (refill listRead m).pos % 8 - 1)) &&& 1, none,
            { refill listRead m with pos := (refill listRead m).pos + 1 }) := by
        rw [nextBit, nextBitCore_extract _ (by omega)]
      rw [hext]
      refine ⟨⟨?_, q2, q3, q4, q5, ?_, q7⟩, fun u p hc => by simp at hc⟩
      · show (refill listRead m).pos + 1 ≤ 8 * (refill listRead m).used
        omega
      · intro hen
        rcases q6 hen with ⟨h64, hp⟩ | ⟨h0, hp⟩
        · refine Or.inl ⟨h64, ?_⟩
          show (refill listRead m).pos + 1 ≤ 384
          have := h384 hen
          omega
        · exfalso
          omega
  · rw [nextBit, refill_not_aligned listRead m ha]
    obtain ⟨g1, g2, g3, g4, g5, g6, g7⟩ := hg
    by_cases hstop : m.pos / 8 = m.used
    · exfalso
      omega
    · rw [nextBitCore_extract m hstop]
      refine ⟨⟨?_, g2, g3, g4, g5, ?_, g7⟩, fun u p hc => by simp at hc⟩
      · show m.pos + 1 ≤ 8 * m.used
        omega
      · intro hen
        rcases g6 hen with ⟨h64, hp⟩ | ⟨h0, hp⟩
        · refine Or.inl ⟨h64, ?_⟩
          show m.pos + 1 ≤ 384
          omega
        · exfalso
          omega

/-- The accumulation loop from a reachable list-source state never
produces the `BUG` error and preserves reachability. -/
theorem nibbleLoop_good :
    ∀ (k : Nat) (m : NibsSt (List Nat)) (ret : Nat), Good m →
      Good (nibbleLoop listRead k ret m).2.2 ∧
      ∀ u p, ¬ (nibbleLoop listRead k ret m).2.1 = some (Err.bug u p) := by
  intro k
  induction k with
  | zero =>
    intro m ret hg
    exact ⟨hg, fun u p hc => by simp [nibbleLoop] at hc⟩
  | succ k ih =>
    intro m ret hg
    have hnbg := nextBit_good m hg
    simp only [nibbleLoop]
    rcases hnb : nextBit listRead m with ⟨bit, e, m1⟩
    rw [hnb] at hnbg
    cases e with
    | some e1 =>
      exact ⟨hnbg.1, hnbg.2⟩
    | none =>
      exact ih m1 _ hnbg.1

/-- Claim C6 (amended): when bit extraction finds the byte index equal
to `used` with no terminal error recorded, the reader returns a
distinguished internal-consistency `BUG` error value through the normal
error channel — it does not panic; and over the well-behaved byte-list
source this branch is unreachable: no `Nibble` call from a reachable
state ever returns the `BUG` error. -/
theorem claim_c6 :
    (∀ (σ : Type) (n : NibsSt σ), n.pos / 8 = n.used → n.err = none →
      nextBitCore n = (0, some (Err.bug n.used n.pos), n)) ∧
    (∀ (m : NibsSt (List Nat)) (w : Int) (u p : Nat), Good m →
      ¬ (Nibble listRead m w).2.1 = some (Err.bug u p)) := by
  constructor
  · intro σ n h he
    exact nextBitCore_noData n h he
  · intro m w u p hg
    unfold Nibble
    split_ifs with h1 h2 h3 h4
    · intro hc
      simp at hc
    · exact (nibbleLoop_good _ m 0 hg).2 u p
    · intro hc
      have h7 := (hg.2.2.2.2.2.2 h2).1
      rw [h7] at hc
      simp at hc
    · intro hc
      simp at hc
    · exact (nibbleLoop_good _ m 0 hg).2 u p

/-- Claim C6 counterexample: against a contract-breaking source that
returns zero bytes with no error, the reader returns the `BUG` error as
an ordinary error value — the call returns normally instead of
aborting/panicking. -/
theorem claim_c6_counterexample :
    Nibble silentRead (New ()) 1 = (0, some (Err.bug 0 0), New ()) := by decide

/-- Claim C6 witness: the `BUG`-branch characterization at a concrete
state, and a concrete reachable extraction that cannot return `BUG`. -/
theorem claim_c6_witness :
    nextBitCore (New ([] : List Nat)) = (0, some (Err.bug 0 0), New []) ∧
    ¬ (Nibble listRead (New ([3] : List Nat)) 1).2.1 = some (Err.bug 0 0) :=
  ⟨claim_c6.1 (List Nat) (New []) rfl rfl,
   claim_c6.2 (New [3]) 1 0 0 (by unfold Good; decide)⟩

end Nibs
